import Mathlib

/-!
# Verification of the Wordle expected-value search engine (solver.cc)

A shallow embedding of the core of `src/solver.cc`:
the feedback-pattern encoder from `ComputeWordPatternMatches`, the
compatibility table, `ToPatternInt`, `TrimWordPatternMatches`, the
recursive minimizer `Recurse`, the per-worker loop body of `Thread`,
and the range split in `main`. Words are lists of characters; the
per-letter counter array `letters_left` is a function `Char → Nat`;
`float` is modelled by `ℚ`; `std::optional` by `Option`.
-/

namespace WordleSolver

/-- A vocabulary word: a (five-character) list of characters. -/
abbrev Word := List Char

/-! ## FeedbackCodec: the encode step inside `ComputeWordPatternMatches`

The C++ first pass walks positions `c = 0..4`: on an exact match it adds
`shift[c] * 2` to the pattern, otherwise it increments
`letters_left[answer[c] - 'a']`.  The second pass walks the positions
again: at a non-exact position, if `letters_left[guess[c] - 'a'] > 0` it
adds `shift[c] * 1` and decrements that counter. -/

/-- The `letters_left` array at the end of the first pass: for each
character, the number of positions where the answer holds it and the
guess does not match exactly. -/
def lettersLeft : Word → Word → Char → Nat
  | g :: gs, a :: as_ =>
    let ll := lettersLeft gs as_
    if g = a then ll else fun ch => if ch = a then ll ch + 1 else ll ch
  | _, _ => fun _ => 0

/-- Contribution of the first pass to the pattern integer: `shift * 2`
at every exact-match position, with `shift` multiplied by 3 per step. -/
def pass1 : Word → Word → Nat → Nat
  | g :: gs, a :: as_, shift =>
    (if g = a then shift * 2 else 0) + pass1 gs as_ (shift * 3)
  | _, _, _ => 0

/-- Contribution of the second pass: `shift * 1` at every non-exact
position whose letter still has remaining credit, decrementing that
letter's counter. -/
def pass2 : Word → Word → Nat → (Char → Nat) → Nat
  | g :: gs, a :: as_, shift, ll =>
    if g = a then pass2 gs as_ (shift * 3) ll
    else if ll g > 0 then
      shift + pass2 gs as_ (shift * 3) (fun ch => if ch = g then ll ch - 1 else ll ch)
    else pass2 gs as_ (shift * 3) ll
  | _, _, _, _ => 0

/-- The pattern integer computed for one `(guess, answer)` pair by the
body of the double loop in `ComputeWordPatternMatches`. -/
def encode (guess answer : Word) : Nat :=
  pass1 guess answer 1 + pass2 guess answer 1 (lettersLeft guess answer)

/-- The per-position digits (0 = no match, 1 = present elsewhere,
2 = exact match) produced by the two passes, as a list. -/
def pass2digits : Word → Word → (Char → Nat) → List Nat
  | g :: gs, a :: as_, ll =>
    if g = a then 2 :: pass2digits gs as_ ll
    else if ll g > 0 then
      1 :: pass2digits gs as_ (fun ch => if ch = g then ll ch - 1 else ll ch)
    else 0 :: pass2digits gs as_ ll
  | _, _, _ => []

/-- The digit string of `encode guess answer`. -/
def encodeDigits (guess answer : Word) : List Nat :=
  pass2digits guess answer (lettersLeft guess answer)

/-- Value of a base-3 digit list with the given leading shift
(the loop accumulates `shift * digit` with `shift *= 3`). -/
def digitsValue : Nat → List Nat → Nat
  | _, [] => 0
  | shift, d :: ds => shift * d + digitsValue (shift * 3) ds

/-- Number of positions at which the guess holds `ch` and the pattern
integer's base-3 digit grants credit (present-elsewhere or exact). -/
def creditFor (guess : Word) (pattern : Nat) (ch : Char) : Nat :=
  (List.range guess.length).countP
    (fun c => (guess.getD c ' ' == ch) && (pattern / 3 ^ c % 3 != 0))

/-- Structural version of `creditFor` on a digit list. -/
def creditCount : Word → List Nat → Char → Nat
  | g :: gs, d :: ds, ch =>
    (if g = ch ∧ d ≠ 0 then 1 else 0) + creditCount gs ds ch
  | _, _, _ => 0

/-- Number of positions where guess and answer agree on `ch`. -/
def exactCount : Word → Word → Char → Nat
  | g :: gs, a :: as_, ch =>
    (if g = a ∧ g = ch then 1 else 0) + exactCount gs as_ ch
  | _, _, _ => 0

/-- Number of positions where the answer holds `ch` but the guess does
not match exactly. -/
def mismatchCount : Word → Word → Char → Nat
  | g :: gs, a :: as_, ch =>
    (if a = ch ∧ g ≠ a then 1 else 0) + mismatchCount gs as_ ch
  | _, _, _ => 0

/-! ## CompatibilityTable: `ComputeWordPatternMatches`

The C++ builds `all_word_pattern_matches`, an `N × 243 × N` boolean
array initialised to `false`, then for every ordered pair `(i, j)` sets
`all_word_pattern_matches[i][pattern(i,j)][j] := true`.  We model the
array as a function of `(guess index, pattern, answer index)` and the
double loop as folds over `List.range`. -/

/-- The compatibility table: guess index → pattern → answer index → Bool. -/
abbrev Table := Nat → Nat → Nat → Bool

/-- Set one entry of the table to `true`. -/
def setEntry (t : Table) (i p j : Nat) : Table :=
  fun i' p' j' => if i' = i ∧ p' = p ∧ j' = j then true else t i' p' j'

/-- The inner loop of `ComputeWordPatternMatches`: for a fixed guess
index `i`, mark every answer `j` under the pattern it produces. -/
def fillGuess (words : List Word) (i : Nat) (t : Table) : Table :=
  (List.range words.length).foldl
    (fun t j => setEntry t i (encode (words.getD i []) (words.getD j [])) j) t

/-- `ComputeWordPatternMatches`: the full table, built from the all-false
table by the double loop over `(i, j)`. -/
def ComputeWordPatternMatches (words : List Word) : Table :=
  (List.range words.length).foldl (fun t i => fillGuess words i t)
    (fun _ _ _ => false)

/-! ## `ToPatternInt`

The C++ asserts `pattern.size() == 5`, then for each character adds
`shift * 2` for `'g'`, `shift * 1` for `'y'`, and asserts the character
is `'_'` otherwise, with `shift` multiplied by 3 per step.  A failed
assertion (wrong length or foreign character) aborts; we model abortion
as `none`. -/

/-- The character loop of `ToPatternInt`. -/
def toPatternIntLoop : List Char → Nat → Option Nat
  | [], _ => some 0
  | c :: rest, shift =>
    if c = 'g' then (toPatternIntLoop rest (shift * 3)).map (shift * 2 + ·)
    else if c = 'y' then (toPatternIntLoop rest (shift * 3)).map (shift * 1 + ·)
    else if c = '_' then toPatternIntLoop rest (shift * 3)
    else none

/-- `ToPatternInt`: length check, then the character loop. -/
def ToPatternInt (pattern : List Char) : Option Nat :=
  if pattern.length = 5 then toPatternIntLoop pattern 1 else none

/-- The digit value of a feedback character (0 for anything that is not
`'y'` or `'g'`). -/
def charDigit (c : Char) : Nat :=
  if c = 'g' then 2 else if c = 'y' then 1 else 0

/-- The feedback character of a digit. -/
def digitChar (d : Nat) : Char :=
  if d = 2 then 'g' else if d = 1 then 'y' else '_'

/-! ## `TrimWordPatternMatches`

For each guess the C++ keeps, in increasing pattern order, exactly the
243 membership vectors with at least one `true` entry, as a dense list.
A membership vector for guess `g` and pattern `p` is the function
`fun j => table g p j` on answer indices. -/

/-- The per-guess dense pattern list after trimming: the membership
vectors of the patterns whose match count over the vocabulary is
positive. -/
def TrimWordPatternMatches (words : List Word) (table : Table) (g : Nat) :
    List (Nat → Bool) :=
  ((List.range 243).filter
    (fun p => 0 < (List.range words.length).countP (fun j => table g p j))).map
    (fun p => table g p)

/-- The untrimmed per-guess pattern list: all 243 membership vectors in
pattern order. -/
def allPatterns (table : Table) (g : Nat) : List (Nat → Bool) :=
  (List.range 243).map (fun p => table g p)

/-! ## SearchKernel: `Recurse`

`Recurse(num_guesses, max_num_guesses, all_words_left, num_words_left,
word_pattern_matches)` returns `optional<float>`.  We model the float
arithmetic over `ℚ`, the working set `words_left` (a prefix of a scratch
buffer) as a `List Nat` of word indices, and the remaining budget
`max_num_guesses - num_guesses` as a fuel argument that the recursion
decreases: the terminal test `num_guesses == max_num_guesses` becomes
`budget = 0`.  The per-guess pattern lists are abstracted as
`wpm : Nat → List (Nat → Bool)` (in the program, the trimmed table). -/

/-- The pattern loop for one candidate inside `Recurse`: accumulate
`new_num_words_left * expected` over the patterns, skipping empty
subsets; `none` models `valid = false` (a branch with no guaranteed
win), which abandons the remaining patterns. -/
def evalBranches (recurse : List Nat → Option ℚ) (nextWord : Nat)
    (wordsLeft : List Nat) : List (Nat → Bool) → Option ℚ
  | [] => some 0
  | pattern :: rest =>
    let subset := wordsLeft.filter (fun w => pattern w)
    if subset.length = 0 then evalBranches recurse nextWord wordsLeft rest
    else
      let expected? : Option ℚ :=
        if subset.headD 0 = nextWord then some 1
        else (recurse subset).map (fun r => 1 + r)
      match expected? with
      | none => none
      | some expected =>
        (evalBranches recurse nextWord wordsLeft rest).map
          (fun acc => (subset.length : ℚ) * expected + acc)

/-- The expected value of one candidate: the accumulated sum divided by
`num_words_left`, or `none` if the candidate was discarded. -/
def candidateValue (recurse : List Nat → Option ℚ)
    (wpm : Nat → List (Nat → Bool)) (wordsLeft : List Nat)
    (nextWord : Nat) : Option ℚ :=
  (evalBranches recurse nextWord wordsLeft (wpm nextWord)).map
    (fun r => r / (wordsLeft.length : ℚ))

/-- The running-minimum update inside `Recurse`:
`if (!min_expected || result < *min_expected) min_expected = result`. -/
def updateMin (minExpected : Option ℚ) (result? : Option ℚ) : Option ℚ :=
  match result? with
  | none => minExpected
  | some result =>
    match minExpected with
    | none => some result
    | some m => if result < m then some result else minExpected

/-- `Recurse`, with the remaining budget `max_num_guesses - num_guesses`
as first argument. -/
def Recurse (wpm : Nat → List (Nat → Bool)) :
    Nat → List Nat → Option ℚ
  | 0, _ => none
  | budget + 1, wordsLeft =>
    if wordsLeft.length = 1 then some 1
    else
      wordsLeft.foldl
        (fun minExpected nextWord =>
          updateMin minExpected
            (candidateValue (Recurse wpm budget) wpm wordsLeft nextWord))
        none

/-! ## `Thread`: the per-worker top-level loop

For each assigned `first_word`, the worker partitions the full
vocabulary `[0, V)` by every pattern of the trimmed table, writing the
subset into `next_words_left`.  Unlike `Recurse`, there is no
`new_num_words_left > 0` guard: the test `next_words_left[0] ==
first_word` reads the buffer head even when nothing was written this
iteration, in which case it sees the previous value (the buffer is
zero-initialised, so initially 0).  We therefore thread the buffer head
`b0` through the computation explicitly. -/

/-- The pattern loop of `Thread` for one candidate: returns the
accumulated `result` (`none` models `valid = false`) and the final
buffer-head value. -/
def threadBranches (recurse : List Nat → Option ℚ) (firstWord V : Nat) :
    Nat → List (Nat → Bool) → Option ℚ × Nat
  | b0, [] => (some 0, b0)
  | b0, pattern :: rest =>
    let subset := (List.range V).filter (fun w => pattern w)
    let b1 := subset.headD b0
    let expected? : Option ℚ :=
      if b1 = firstWord then some 1
      else (recurse subset).map (fun r => 1 + r)
    match expected? with
    | none => (none, b1)
    | some expected =>
      match threadBranches recurse firstWord V b1 rest with
      | (none, b2) => (none, b2)
      | (some acc, b2) => (some ((subset.length : ℚ) * expected + acc), b2)

/-- The value `Thread` computes for one first guess: the branch
accumulation (recursing with `num_guesses = 1`) divided by the
vocabulary size, plus the final buffer head. -/
def threadCandidate (wpm : Nat → List (Nat → Bool)) (V maxNum b0 firstWord : Nat) :
    Option ℚ × Nat :=
  match threadBranches (Recurse wpm (maxNum - 1)) firstWord V b0 (wpm firstWord) with
  | (res, b1) => (res.map (fun r => r / (V : ℚ)), b1)

/-- A worker's run over its assigned candidate list: the emitted
(expected value, word index) records, in order, threading the scratch
buffer head. -/
def threadRun (wpm : Nat → List (Nat → Bool)) (V maxNum : Nat) :
    Nat → List Nat → List (ℚ × Nat)
  | _, [] => []
  | b0, w :: ws =>
    match threadCandidate wpm V maxNum b0 w with
    | (none, b1) => threadRun wpm V maxNum b1 ws
    | (some r, b1) => (r, w) :: threadRun wpm V maxNum b1 ws

/-- The best-so-far update performed under the mutex:
`if (!min_expected || result < *min_expected || (result == *min_expected
&& first_word < best_word))`.  `best_word` is only ever read when
`min_expected` is set, so the pair is modelled jointly as an
`Option (ℚ × Nat)`. -/
def updateBest (best : Option (ℚ × Nat)) (rec : ℚ × Nat) : Option (ℚ × Nat) :=
  match best with
  | none => some rec
  | some (m, bw) =>
    if rec.1 < m ∨ (rec.1 = m ∧ rec.2 < bw) then some rec else best

/-- Strict lexicographic order on (expected value, vocabulary index):
the update condition of `updateBest` against an existing record. -/
def lexLt (p q : ℚ × Nat) : Prop :=
  p.1 < q.1 ∨ (p.1 = q.1 ∧ p.2 < q.2)

instance (p q : ℚ × Nat) : Decidable (lexLt p q) := by
  unfold lexLt; infer_instance

/-! ## ParallelDispatcher: the range split in `main`

`int start = words.size() * thread / kNumThreads;`
`int end = words.size() * (thread + 1) / kNumThreads;` -/

/-- Start of worker `t`'s range. -/
def rangeStart (V K t : Nat) : Nat := V * t / K

/-- End of worker `t`'s range (one past the last index). -/
def rangeEnd (V K t : Nat) : Nat := V * (t + 1) / K

/-! ## A tiny sample vocabulary, used to instantiate theorems with
concrete inputs. -/

/-- A two-word sample vocabulary with disjoint letters. -/
def wordsB : List Word :=
  [['a', 'b', 'c', 'd', 'e'], ['f', 'g', 'h', 'i', 'j']]

/-- Its compatibility table. -/
def tableB : Table := ComputeWordPatternMatches wordsB

/-- Its trimmed pattern lists. -/
def wpmB : Nat → List (Nat → Bool) := TrimWordPatternMatches wordsB tableB

/-! # Theorems -/

/-! ## Digit arithmetic for the encoder -/

theorem digitsValue_shift (s : Nat) (ds : List Nat) :
    digitsValue s ds = s * digitsValue 1 ds := by
  induction ds generalizing s with
  | nil => simp [digitsValue]
  | cons d ds ih =>
    simp only [digitsValue]
    rw [ih (s * 3), ih 3]
    ring

theorem digitsValue_cons (d : Nat) (ds : List Nat) :
    digitsValue 1 (d :: ds) = d + 3 * digitsValue 1 ds := by
  simp only [digitsValue, one_mul]
  rw [digitsValue_shift 3]

/-- The two passes together compute exactly the base-3 value of the
digit list. -/
theorem pass1_add_pass2_eq_digitsValue (guess answer : Word) (s : Nat)
    (ll : Char → Nat) :
    pass1 guess answer s + pass2 guess answer s ll
      = digitsValue s (pass2digits guess answer ll) := by
  induction guess generalizing answer s ll with
  | nil => cases answer <;> simp [pass1, pass2, pass2digits, digitsValue]
  | cons g gs ih =>
    cases answer with
    | nil => simp [pass1, pass2, pass2digits, digitsValue]
    | cons a as_ =>
      by_cases hga : g = a
      · simp only [pass1, pass2, pass2digits, if_pos hga, digitsValue]
        rw [← ih as_ (s * 3) ll]
        ring
      · by_cases hll : ll g > 0
        · simp only [pass1, pass2, pass2digits, if_neg hga, if_pos hll,
            digitsValue]
          rw [← ih as_ (s * 3) (fun ch => if ch = g then ll ch - 1 else ll ch)]
          ring
        · simp only [pass1, pass2, pass2digits, if_neg hga, if_neg hll,
            digitsValue]
          rw [← ih as_ (s * 3) ll]
          ring

theorem encode_eq_digitsValue (guess answer : Word) :
    encode guess answer = digitsValue 1 (encodeDigits guess answer) :=
  pass1_add_pass2_eq_digitsValue guess answer 1 (lettersLeft guess answer)

theorem pass2digits_length (guess answer : Word) (ll : Char → Nat)
    (h : guess.length = answer.length) :
    (pass2digits guess answer ll).length = guess.length := by
  induction guess generalizing answer ll with
  | nil => simp [pass2digits]
  | cons g gs ih =>
    cases answer with
    | nil => simp at h
    | cons a as_ =>
      simp only [List.length_cons, Nat.succ_inj] at h
      by_cases hga : g = a
      · simp [pass2digits, hga, ih as_ ll h]
      · by_cases hll : ll g > 0
        · simp [pass2digits, hga, hll,
            ih as_ (fun ch => if ch = g then ll ch - 1 else ll ch) h]
        · simp [pass2digits, hga, hll, ih as_ ll h]

theorem pass2digits_lt_three (guess answer : Word) (ll : Char → Nat) :
    ∀ d ∈ pass2digits guess answer ll, d < 3 := by
  induction guess generalizing answer ll with
  | nil => cases answer <;> simp [pass2digits]
  | cons g gs ih =>
    cases answer with
    | nil => simp [pass2digits]
    | cons a as_ =>
      by_cases hga : g = a
      · simp only [pass2digits, if_pos hga, List.mem_cons]
        rintro d (rfl | hd)
        · omega
        · exact ih as_ ll d hd
      · by_cases hll : ll g > 0
        · simp only [pass2digits, if_neg hga, if_pos hll, List.mem_cons]
          rintro d (rfl | hd)
          · omega
          · exact ih as_ _ d hd
        · simp only [pass2digits, if_neg hga, if_neg hll, List.mem_cons]
          rintro d (rfl | hd)
          · omega
          · exact ih as_ ll d hd

/-- Extracting digit `c` from a base-3 value recovers the digit list. -/
theorem digitsValue_digit (ds : List Nat) (hlt : ∀ d ∈ ds, d < 3) :
    ∀ c < ds.length, digitsValue 1 ds / 3 ^ c % 3 = ds.getD c 0 := by
  induction ds with
  | nil => simp
  | cons d ds ih =>
    intro c hc
    have hd : d < 3 := hlt d (List.mem_cons_self d ds)
    rw [digitsValue_cons]
    cases c with
    | zero =>
      simp only [pow_zero, Nat.div_one, List.getD_cons_zero]
      omega
    | succ c =>
      have h1 : (d + 3 * digitsValue 1 ds) / 3 ^ (c + 1)
          = digitsValue 1 ds / 3 ^ c := by
        rw [pow_succ, mul_comm (3 ^ c) 3, ← Nat.div_div_eq_div_mul]
        congr 1
        omega
      rw [h1]
      simp only [List.getD_cons_succ]
      exact ih (fun x hx => hlt x (List.mem_cons_of_mem d hx)) c
        (by simpa using hc)

/-! ## Characterisation of the built compatibility table -/

theorem foldl_setEntry_spec (words : List Word) (i : Nat) (js : List Nat)
    (t : Table) (i' p' j' : Nat) :
    (js.foldl
      (fun t j => setEntry t i (encode (words.getD i []) (words.getD j [])) j) t)
      i' p' j'
    = if i' = i ∧ j' ∈ js ∧ p' = encode (words.getD i []) (words.getD j' [])
      then true else t i' p' j' := by
  induction js generalizing t with
  | nil => simp
  | cons j js ih =>
    rw [List.foldl_cons, ih]
    by_cases hmem : i' = i ∧ j' ∈ js ∧ p' = encode (words.getD i []) (words.getD j' [])
    · rw [if_pos hmem, if_pos ⟨hmem.1, List.mem_cons_of_mem j hmem.2.1, hmem.2.2⟩]
    · rw [if_neg hmem]
      simp only [setEntry]
      by_cases hhead : i' = i ∧ p' = encode (words.getD i []) (words.getD j [])
        ∧ j' = j
      · rw [if_pos hhead,
          if_pos ⟨hhead.1, by rw [hhead.2.2]; exact List.mem_cons_self j js,
            by rw [hhead.2.2]; exact hhead.2.1⟩]
      · rw [if_neg hhead, if_neg]
        rintro ⟨rfl, hj, rfl⟩
        rcases List.mem_cons.mp hj with rfl | hj
        · exact hhead ⟨rfl, rfl, rfl⟩
        · exact hmem ⟨rfl, hj, rfl⟩

theorem fillGuess_spec (words : List Word) (i : Nat) (t : Table)
    (i' p' j' : Nat) :
    fillGuess words i t i' p' j'
    = if i' = i ∧ j' < words.length
        ∧ p' = encode (words.getD i []) (words.getD j' [])
      then true else t i' p' j' := by
  rw [fillGuess, foldl_setEntry_spec]
  simp [List.mem_range]

/-- Characterisation of the built table: entry `(g, p, a)` is `true`
exactly when `g` and `a` are in range and `encode` of the corresponding
words yields `p`. -/
theorem ComputeWordPatternMatches_spec (words : List Word) (g p a : Nat) :
    ComputeWordPatternMatches words g p a
    = if g < words.length ∧ a < words.length
        ∧ p = encode (words.getD g []) (words.getD a [])
      then true else false := by
  rw [ComputeWordPatternMatches]
  have main : ∀ (is : List Nat) (t : Table),
      (is.foldl (fun t i => fillGuess words i t) t) g p a
      = if g ∈ is ∧ a < words.length
          ∧ p = encode (words.getD g []) (words.getD a [])
        then true else t g p a := by
    intro is
    induction is with
    | nil => simp
    | cons i is ih =>
      intro t
      rw [List.foldl_cons, ih]
      by_cases hmem : g ∈ is ∧ a < words.length
        ∧ p = encode (words.getD g []) (words.getD a [])
      · rw [if_pos hmem, if_pos ⟨List.mem_cons_of_mem i hmem.1, hmem.2⟩]
      · rw [if_neg hmem, fillGuess_spec]
        by_cases hhead : g = i ∧ a < words.length
          ∧ p = encode (words.getD i []) (words.getD a [])
        · rw [if_pos hhead, if_pos]
          refine ⟨by rw [hhead.1]; exact List.mem_cons_self i is, hhead.2.1, ?_⟩
          rw [hhead.1]; exact hhead.2.2
        · rw [if_neg hhead, if_neg]
          rintro ⟨hg, ha, hp⟩
          rcases List.mem_cons.mp hg with rfl | hg
          · exact hhead ⟨rfl, ha, hp⟩
          · exact hmem ⟨hg, ha, hp⟩
  rw [main]
  simp [List.mem_range]

/-! ## Claim C1 -/

/-- C1: For every vocabulary, the table built by
`ComputeWordPatternMatches` satisfies: for every in-range guess index
`g` and every pattern `p`, entry `(g, p, a)` holds exactly for the
in-range answer indices `a` with `encode(guess, answer) = p`; in
particular, for every (guess, answer) pair, the answer is a member of
`table[guess][encode(guess, answer)]`. -/
theorem table_membership_spec (words : List Word) (g p a : Nat)
    (hg : g < words.length) :
    (ComputeWordPatternMatches words g p a = true
      ↔ a < words.length ∧ encode (words.getD g []) (words.getD a []) = p)
    ∧ (a < words.length →
        ComputeWordPatternMatches words g
          (encode (words.getD g []) (words.getD a [])) a = true) := by
  constructor
  · rw [ComputeWordPatternMatches_spec]
    by_cases ha : a < words.length
    · by_cases h : p = encode (words.getD g []) (words.getD a [])
      · simp [hg, ha, h]
      · simp [hg, ha, h, eq_comm]
    · simp [ha]
  · intro ha
    rw [ComputeWordPatternMatches_spec]
    simp [hg, ha]

theorem table_membership_spec_witness :
    0 < wordsB.length ∧ 1 < wordsB.length
    ∧ ComputeWordPatternMatches wordsB 0
        (encode (wordsB.getD 0 []) (wordsB.getD 1 [])) 1 = true :=
  ⟨by decide, by decide,
    (table_membership_spec wordsB 0 0 1 (by decide)).2 (by decide)⟩

/-! ## Claim C3 -/

/-- C3: `Recurse` returns "no guaranteed win" whenever the committed
guesses exhaust the budget (remaining budget 0), regardless of the
working set; with positive remaining budget, a singleton working set
returns exactly 1.  The budget check takes priority (the first conjunct
applies to singletons as well). -/
theorem recurse_terminal_cases (wpm : Nat → List (Nat → Bool))
    (wordsLeft : List Nat) (budget : Nat) :
    Recurse wpm 0 wordsLeft = none
    ∧ (wordsLeft.length = 1 → Recurse wpm (budget + 1) wordsLeft = some 1) := by
  refine ⟨rfl, fun h => ?_⟩
  simp [Recurse, h]

theorem recurse_terminal_cases_witness :
    Recurse (fun _ => []) 0 [5] = none
    ∧ ([5] : List Nat).length = 1
    ∧ Recurse (fun _ => []) 1 [5] = some 1 :=
  ⟨(recurse_terminal_cases (fun _ => []) [5] 0).1, by decide,
    (recurse_terminal_cases (fun _ => []) [5] 0).2 rfl⟩

/-! ## Claim C8 -/

theorem digitsValue_eq_sum (ds : List Nat) :
    digitsValue 1 ds = ∑ i in Finset.range ds.length, 3 ^ i * ds.getD i 0 := by
  induction ds with
  | nil => simp [digitsValue]
  | cons d ds ih =>
    rw [digitsValue_cons, ih, List.length_cons, Finset.sum_range_succ']
    simp only [List.getD_cons_succ, List.getD_cons_zero, pow_zero, one_mul,
      Finset.mul_sum]
    rw [Finset.sum_congr rfl
      (fun i _ => show (3:ℕ) ^ (i + 1) * ds.getD i 0
        = 3 * (3 ^ i * ds.getD i 0) by ring)]
    omega

theorem toPatternIntLoop_valid (p : List Char) :
    ∀ s : Nat, (∀ c ∈ p, c = '_' ∨ c = 'y' ∨ c = 'g') →
    toPatternIntLoop p s = some (digitsValue s (p.map charDigit)) := by
  induction p with
  | nil => intro s _; simp [toPatternIntLoop, digitsValue]
  | cons c rest ih =>
    intro s hv
    have hrest := ih (s * 3) (fun x hx => hv x (List.mem_cons_of_mem c hx))
    rcases hv c (List.mem_cons_self c rest) with h | h | h <;> subst h
    · rw [toPatternIntLoop, if_neg (by decide), if_neg (by decide),
        if_pos rfl, hrest]
      simp [digitsValue, charDigit]
    · rw [toPatternIntLoop, if_neg (by decide), if_pos rfl, hrest]
      simp [digitsValue, charDigit]
    · rw [toPatternIntLoop, if_pos rfl, hrest]
      simp [digitsValue, charDigit]

theorem toPatternIntLoop_invalid (p : List Char) :
    ∀ s : Nat, (∃ c ∈ p, ¬(c = '_' ∨ c = 'y' ∨ c = 'g')) →
    toPatternIntLoop p s = none := by
  induction p with
  | nil => simp
  | cons c rest ih =>
    intro s hv
    rcases hv with ⟨x, hx, hbad⟩
    rcases List.mem_cons.mp hx with rfl | hx
    · rw [toPatternIntLoop, if_neg (fun h => hbad (Or.inr (Or.inr h))),
        if_neg (fun h => hbad (Or.inr (Or.inl h))),
        if_neg (fun h => hbad (Or.inl h))]
    · have hrest := ih (s * 3) ⟨x, hx, hbad⟩
      rw [toPatternIntLoop]
      split_ifs <;> simp [hrest]

theorem map_charDigit_map_digitChar (ds : List Nat) (h : ∀ d ∈ ds, d < 3) :
    (ds.map digitChar).map charDigit = ds := by
  induction ds with
  | nil => simp
  | cons d ds ih =>
    have hd : d < 3 := h d (List.mem_cons_self d ds)
    have : charDigit (digitChar d) = d := by
      interval_cases d <;> decide
    simp only [List.map_cons, this, List.cons.injEq, true_and]
    exact ih (fun x hx => h x (List.mem_cons_of_mem d hx))

theorem digitChar_mem_alphabet (ds : List Nat) :
    ∀ c ∈ ds.map digitChar, c = '_' ∨ c = 'y' ∨ c = 'g' := by
  intro c hc
  rcases List.mem_map.mp hc with ⟨d, _, rfl⟩
  unfold digitChar
  split_ifs <;> simp

theorem getD_map_charDigit (l : List Char) :
    ∀ i < l.length, (l.map charDigit).getD i 0 = charDigit (l.getD i '_') := by
  induction l with
  | nil => simp
  | cons c rest ih =>
    intro i hi
    cases i with
    | zero => simp
    | succ i => simpa using ih i (by simpa using hi)

/-- C8: `ToPatternInt` on a 5-character string over `{'_', 'y', 'g'}`
returns the sum over positions `i` of `3^i` times the digit value
(0 for `'_'`, 1 for `'y'`, 2 for `'g'`); it fails (asserts) on any
input whose length is not 5 or that holds a foreign character; and it
is the left inverse of the digit encoding produced by `encode`. -/
theorem toPatternInt_spec (p : List Char) (guess answer : Word)
    (h5 : p.length = 5) (hvalid : ∀ c ∈ p, c = '_' ∨ c = 'y' ∨ c = 'g')
    (hg : guess.length = 5) (ha : answer.length = 5) :
    ToPatternInt p
      = some (∑ i in Finset.range 5, 3 ^ i * charDigit (p.getD i '_'))
    ∧ (∀ q : List Char, q.length ≠ 5 → ToPatternInt q = none)
    ∧ (∀ q : List Char,
        (∃ c ∈ q, ¬(c = '_' ∨ c = 'y' ∨ c = 'g')) → ToPatternInt q = none)
    ∧ ToPatternInt ((encodeDigits guess answer).map digitChar)
        = some (encode guess answer) := by
  refine ⟨?_, ?_, ?_, ?_⟩
  · rw [ToPatternInt, if_pos h5, toPatternIntLoop_valid p 1 hvalid,
      digitsValue_eq_sum]
    have hlen : (p.map charDigit).length = 5 := by simp [h5]
    rw [hlen]
    congr 1
    refine Finset.sum_congr rfl (fun i hi => ?_)
    rw [getD_map_charDigit p i (by rw [h5]; exact Finset.mem_range.mp hi)]
  · intro q hq
    rw [ToPatternInt, if_neg hq]
  · intro q hq
    rw [ToPatternInt]
    split_ifs with h
    · exact toPatternIntLoop_invalid q 1 hq
    · rfl
  · have hdlen : (encodeDigits guess answer).length = 5 := by
      rw [encodeDigits, pass2digits_length guess answer _ (by rw [hg, ha]), hg]
    have hlt : ∀ d ∈ encodeDigits guess answer, d < 3 :=
      pass2digits_lt_three guess answer (lettersLeft guess answer)
    rw [ToPatternInt, if_pos (by simp [hdlen]),
      toPatternIntLoop_valid _ 1 (digitChar_mem_alphabet _),
      map_charDigit_map_digitChar _ hlt, ← encode_eq_digitsValue]

theorem toPatternInt_spec_witness :
    ([ '_', '_', 'g', '_', 'g'] : List Char).length = 5
    ∧ (∀ c ∈ ([ '_', '_', 'g', '_', 'g'] : List Char),
        c = '_' ∨ c = 'y' ∨ c = 'g')
    ∧ ToPatternInt ['_', '_', 'g', '_', 'g'] = some 180
    ∧ ToPatternInt ['_', '_', 'g', '_'] = none
    ∧ ToPatternInt ['z', '_', 'g', '_', 'g'] = none
    ∧ ToPatternInt
        ((encodeDigits (wordsB.getD 0 []) (wordsB.getD 0 [])).map digitChar)
        = some (encode (wordsB.getD 0 []) (wordsB.getD 0 [])) := by
  have T := toPatternInt_spec ['_', '_', 'g', '_', 'g']
    (wordsB.getD 0 []) (wordsB.getD 0 []) (by decide) (by decide)
    (by decide) (by decide)
  exact ⟨by decide, by decide, by rw [T.1]; decide,
    T.2.1 _ (by decide), T.2.2.1 _ (by decide), T.2.2.2⟩

/-! ## Claim C2 -/

theorem creditCount_eq_countP (guess : Word) (ds : List Nat) (ch : Char)
    (hlen : guess.length = ds.length) :
    creditCount guess ds ch
      = (List.range guess.length).countP
          (fun c => (guess.getD c ' ' == ch) && (ds.getD c 0 != 0)) := by
  induction guess generalizing ds with
  | nil => simp [creditCount]
  | cons g gs ih =>
    cases ds with
    | nil => simp at hlen
    | cons d ds =>
      rw [List.length_cons, List.range_succ_eq_map, List.countP_cons,
        List.countP_map]
      have hcomp :
          ((fun c => ((g :: gs).getD c ' ' == ch) && ((d :: ds).getD c 0 != 0))
            ∘ Nat.succ)
          = (fun c => (gs.getD c ' ' == ch) && (ds.getD c 0 != 0)) := by
        funext c
        simp [Function.comp]
      rw [hcomp]
      simp only [List.getD_cons_zero]
      rw [creditCount, ih ds (by simpa using hlen)]
      by_cases h : g = ch ∧ d ≠ 0
      · rw [if_pos h, if_pos (by simp [h.1, h.2])]
        omega
      · rw [if_neg h, if_neg (by simpa [Decidable.not_and_iff_or_not] using h)]
        omega

theorem creditCount_pass2digits_le (guess answer : Word) (ll : Char → Nat)
    (ch : Char) :
    creditCount guess (pass2digits guess answer ll) ch
      ≤ exactCount guess answer ch + ll ch := by
  induction guess generalizing answer ll with
  | nil => cases answer <;> simp [pass2digits, creditCount, exactCount]
  | cons g gs ih =>
    cases answer with
    | nil => simp [pass2digits, creditCount, exactCount]
    | cons a as_ =>
      by_cases hga : g = a
      · simp only [pass2digits, if_pos hga, creditCount, exactCount]
        have h := ih as_ ll
        by_cases hch : g = ch
        · rw [if_pos ⟨hch, by omega⟩, if_pos ⟨hga, hch⟩]; omega
        · rw [if_neg (fun hc => hch hc.1), if_neg (fun hc => hch hc.2)]; omega
      · by_cases hll : ll g > 0
        · simp only [pass2digits, if_neg hga, if_pos hll, creditCount,
            exactCount]
          by_cases hch : g = ch
          · subst hch
            have h := ih as_ (fun c => if c = g then ll c - 1 else ll c)
            simp only [eq_self_iff_true, if_true, ite_true] at h
            rw [if_pos ⟨rfl, by omega⟩, if_neg (fun hc => hga hc.1)]
            omega
          · have h := ih as_ (fun c => if c = g then ll c - 1 else ll c)
            have hne : ch ≠ g := fun hc => hch hc.symm
            simp only [if_neg hne] at h
            rw [if_neg (fun hc => hch hc.1), if_neg (fun hc => hga hc.1)]
            omega
        · simp only [pass2digits, if_neg hga, if_neg hll, creditCount,
            exactCount]
          have h := ih as_ ll
          rw [if_neg (fun hc => hc.2 rfl), if_neg (fun hc => hga hc.1)]
          omega

theorem lettersLeft_eq_mismatchCount (guess answer : Word) (ch : Char) :
    lettersLeft guess answer ch = mismatchCount guess answer ch := by
  induction guess generalizing answer with
  | nil => cases answer <;> simp [lettersLeft, mismatchCount]
  | cons g gs ih =>
    cases answer with
    | nil => simp [lettersLeft, mismatchCount]
    | cons a as_ =>
      by_cases hga : g = a
      · simp only [lettersLeft, if_pos hga, mismatchCount]
        rw [ih as_, if_neg (fun hc => hc.2 hga)]
        omega
      · simp only [lettersLeft, if_neg hga, mismatchCount, ite_apply]
        by_cases hch : ch = a
        · rw [if_pos hch, ih as_, if_pos ⟨hch.symm, hga⟩]
          omega
        · rw [if_neg hch, ih as_, if_neg (fun hc => hch hc.1.symm)]
          omega

theorem exactCount_add_mismatchCount (guess answer : Word) (ch : Char)
    (hlen : guess.length = answer.length) :
    exactCount guess answer ch + mismatchCount guess answer ch
      = answer.count ch := by
  induction guess generalizing answer with
  | nil =>
    cases answer with
    | nil => simp [exactCount, mismatchCount]
    | cons a as_ => simp at hlen
  | cons g gs ih =>
    cases answer with
    | nil => simp at hlen
    | cons a as_ =>
      have h := ih as_ (by simpa using hlen)
      simp only [exactCount, mismatchCount, List.count_cons, beq_iff_eq]
      by_cases hga : g = a
      · by_cases hch : a = ch
        · rw [if_pos ⟨hga, hga.trans hch⟩, if_neg (fun hc => hc.2 hga),
            if_pos hch]
          omega
        · rw [if_neg (fun hc => hch (hga.symm.trans hc.2)),
            if_neg (fun hc => hch hc.1), if_neg hch]
          omega
      · by_cases hch : a = ch
        · rw [if_neg (fun hc => hga hc.1), if_pos ⟨hch, hga⟩, if_pos hch]
          omega
        · rw [if_neg (fun hc => hga hc.1), if_neg (fun hc => hch hc.1),
            if_neg hch]
          omega

theorem creditFor_encode_eq_creditCount (guess answer : Word) (ch : Char)
    (hlen : guess.length = answer.length) :
    creditFor guess (encode guess answer) ch
      = creditCount guess (encodeDigits guess answer) ch := by
  have hdlen : (encodeDigits guess answer).length = guess.length :=
    pass2digits_length guess answer _ hlen
  have hlt : ∀ d ∈ encodeDigits guess answer, d < 3 :=
    pass2digits_lt_three guess answer (lettersLeft guess answer)
  rw [creditFor, creditCount_eq_countP guess _ ch hdlen.symm]
  apply List.countP_congr
  intro c hc
  have hcl : c < guess.length := List.mem_range.mp hc
  rw [encode_eq_digitsValue,
    digitsValue_digit _ hlt c (by rw [hdlen]; exact hcl)]

/-- C2: encoding a guess with a repeated letter against an answer that
holds that letter exactly once grants at most one credit
(present-elsewhere or exact-match) total for that letter across the
positions of the computed pattern. -/
theorem encode_duplicate_letter_credit (guess answer : Word) (ch : Char)
    (hlen : guess.length = answer.length)
    (hdup : 2 ≤ guess.count ch) (hone : answer.count ch = 1) :
    creditFor guess (encode guess answer) ch ≤ 1 := by
  have h1 := creditFor_encode_eq_creditCount guess answer ch hlen
  have h2 := creditCount_pass2digits_le guess answer
    (lettersLeft guess answer) ch
  have h3 := lettersLeft_eq_mismatchCount guess answer ch
  have h4 := exactCount_add_mismatchCount guess answer ch hlen
  rw [encodeDigits] at h1
  omega

theorem encode_duplicate_letter_credit_witness :
    ([ 'a', 'a', 'x', 'x', 'x'] : Word).length
      = ([ 'x', 'a', 'q', 'q', 'q'] : Word).length
    ∧ 2 ≤ ([ 'a', 'a', 'x', 'x', 'x'] : Word).count 'a'
    ∧ ([ 'x', 'a', 'q', 'q', 'q'] : Word).count 'a' = 1
    ∧ creditFor ['a', 'a', 'x', 'x', 'x']
        (encode ['a', 'a', 'x', 'x', 'x'] ['x', 'a', 'q', 'q', 'q']) 'a' ≤ 1 :=
  ⟨by decide, by decide, by decide,
    encode_duplicate_letter_credit ['a', 'a', 'x', 'x', 'x']
      ['x', 'a', 'q', 'q', 'q'] 'a' (by decide) (by decide) (by decide)⟩

/-! ## Claim C6 -/

/-- C6 counterexample: with vocabulary size 25 and 24 workers, the
claimed sizing (every worker gets `ceil(V / workerCount)` except a
shorter final remainder) predicts worker 0 gets 2 candidates; the
code's split `V * t / K` gives worker 0 exactly 1 candidate, and gives
the extra candidate to the *last* worker instead. -/
theorem main_range_size_counterexample :
    rangeEnd 25 24 0 - rangeStart 25 24 0 = 1
    ∧ (25 + 24 - 1) / 24 = 2
    ∧ rangeEnd 25 24 23 - rangeStart 25 24 23 = 2 := by decide

/-- C6 (amended): the dispatcher splits `[0, V)` into one contiguous
range per worker, in order and covering everything (worker `t` gets
`[V*t/K, V*(t+1)/K)`, worker 0 starts at 0, the last worker ends at
`V`, consecutive ranges abut and starts are monotone, so the ranges are
pairwise disjoint); every range's size lies between `floor(V / K)` and
`ceil(V / K)`, i.e. the split is as even as possible, rather than
`ceil(V / K)` for all but a shorter final remainder. -/
theorem main_range_partition (V K t : Nat) (hK : 0 < K) :
    rangeStart V K 0 = 0
    ∧ rangeEnd V K (K - 1) = V
    ∧ rangeEnd V K t = rangeStart V K (t + 1)
    ∧ rangeStart V K t ≤ rangeEnd V K t
    ∧ V / K ≤ rangeEnd V K t - rangeStart V K t
    ∧ rangeEnd V K t - rangeStart V K t ≤ (V + K - 1) / K := by
  have hKsucc : K - 1 + 1 = K := Nat.succ_pred_eq_of_pos hK
  have hsplit : V * (t + 1) / K = V * t / K + (V * t % K + V) / K := by
    have ha : V * (t + 1) = K * (V * t / K) + (V * t % K + V) := by
      have h := Nat.div_add_mod (V * t) K
      have : V * (t + 1) = V * t + V := by ring
      omega
    rw [ha, Nat.mul_add_div hK]
  have hmod : V * t % K ≤ K - 1 := by
    have := Nat.mod_lt (V * t) hK
    omega
  refine ⟨by simp [rangeStart], ?_, rfl, ?_, ?_, ?_⟩
  · rw [rangeEnd, hKsucc, Nat.mul_div_cancel V hK]
  · exact Nat.div_le_div_right (Nat.mul_le_mul_left V (Nat.le_succ t))
  · have hlow : V / K ≤ (V * t % K + V) / K :=
      Nat.div_le_div_right (Nat.le_add_left V _)
    rw [rangeEnd, rangeStart, hsplit, Nat.add_sub_cancel_left]
    exact hlow
  · have hhigh : (V * t % K + V) / K ≤ (V + K - 1) / K := by
      refine Nat.div_le_div_right ?_
      omega
    rw [rangeEnd, rangeStart, hsplit, Nat.add_sub_cancel_left]
    exact hhigh

theorem main_range_partition_witness :
    0 < 24
    ∧ (rangeStart 25 24 0 = 0
      ∧ rangeEnd 25 24 23 = 25
      ∧ rangeEnd 25 24 3 = rangeStart 25 24 4
      ∧ rangeStart 25 24 3 ≤ rangeEnd 25 24 3
      ∧ 25 / 24 ≤ rangeEnd 25 24 3 - rangeStart 25 24 3
      ∧ rangeEnd 25 24 3 - rangeStart 25 24 3 ≤ (25 + 24 - 1) / 24) :=
  ⟨by decide, main_range_partition 25 24 3 (by decide)⟩

/-! ## Claim C4 -/

theorem updateMin_none_right (m : Option ℚ) : updateMin m none = m := rfl

theorem updateMin_none_some (r : ℚ) : updateMin none (some r) = some r := rfl

theorem updateMin_some_some (m r : ℚ) :
    updateMin (some m) (some r) = some (min m r) := by
  show (if r < m then some r else some m) = some (min m r)
  split_ifs with h
  · rw [min_eq_right h.le]
  · rw [min_eq_left (not_lt.mp h)]

/-- The running minimum inside `Recurse` computes the minimum of the
values of the non-discarded candidates. -/
theorem foldl_updateMin_min? (f : Nat → Option ℚ) (ws : List Nat) :
    ws.foldl (fun m w => updateMin m (f w)) none = (ws.filterMap f).min? := by
  have hsome : ∀ (ws : List Nat) (a : ℚ),
      ws.foldl (fun m w => updateMin m (f w)) (some a)
        = some ((ws.filterMap f).foldl min a) := by
    intro ws
    induction ws with
    | nil => intro a; simp
    | cons w ws ih =>
      intro a
      rw [List.foldl_cons, List.filterMap_cons]
      cases hf : f w with
      | none =>
        simp only [hf, updateMin_none_right]
        exact ih a
      | some r =>
        simp only [hf, updateMin_some_some, List.foldl_cons]
        exact ih (min a r)
  induction ws with
  | nil => simp
  | cons w ws ih =>
    rw [List.foldl_cons, List.filterMap_cons]
    cases hf : f w with
    | none =>
      simp only [hf, updateMin_none_right]
      exact ih
    | some r =>
      simp only [hf, updateMin_none_some]
      rw [hsome ws r]
      rfl

/-- A branch reporting "no guaranteed win" condemns the whole
candidate, wherever it sits in the pattern list. -/
theorem evalBranches_abort (recurse : List Nat → Option ℚ) (w : Nat)
    (ws : List Nat) (l : List (Nat → Bool)) (p : Nat → Bool)
    (hp : p ∈ l)
    (hne : (ws.filter (fun x => p x)).length ≠ 0)
    (hhead : (ws.filter (fun x => p x)).headD 0 ≠ w)
    (hfail : recurse (ws.filter (fun x => p x)) = none) :
    evalBranches recurse w ws l = none := by
  induction l with
  | nil => cases hp
  | cons q rest ih =>
    rcases List.mem_cons.mp hp with rfl | hp
    · simp only [evalBranches, if_neg hne, if_neg hhead, hfail]
      rfl
    · have hrest := ih hp
      simp only [evalBranches, hrest, Option.map_none']
      split_ifs with h1 h2
      · rfl
      · rfl
      · cases recurse (List.filter (fun w => q w) ws) <;> rfl

/-- C4: inside the recursive case, a pattern branch whose recursive
evaluation fails discards the whole candidate (remaining patterns are
not consulted: the accumulated value is "no win" whatever they are),
and the value returned is the minimum over the values of the
non-discarded candidates only — "no guaranteed win" when every
candidate was discarded (the minimum of the empty list). -/
theorem recurse_branch_and_bound (recurse : List Nat → Option ℚ)
    (w : Nat) (ws : List Nat) (l : List (Nat → Bool)) (p : Nat → Bool)
    (wpm : Nat → List (Nat → Bool)) (budget : Nat) (ws' : List Nat)
    (hp : p ∈ l) (hne : (ws.filter (fun x => p x)).length ≠ 0)
    (hhead : (ws.filter (fun x => p x)).headD 0 ≠ w)
    (hfail : recurse (ws.filter (fun x => p x)) = none)
    (hlen : ws'.length ≠ 1) :
    evalBranches recurse w ws l = none
    ∧ Recurse wpm (budget + 1) ws'
        = (ws'.filterMap
            (candidateValue (Recurse wpm budget) wpm ws')).min? := by
  refine ⟨evalBranches_abort recurse w ws l p hp hne hhead hfail, ?_⟩
  rw [Recurse, if_neg hlen, foldl_updateMin_min?]

theorem recurse_branch_and_bound_witness :
    (([0, 1] : List Nat).filter (fun x => (fun j => j == 1) x)).length ≠ 0
    ∧ (([0, 1] : List Nat).filter (fun x => (fun j => j == 1) x)).headD 0 ≠ 0
    ∧ evalBranches (fun _ => none) 0 [0, 1] [fun j => j == 1] = none
    ∧ Recurse (fun _ => []) 1 [0, 1]
        = (([0, 1] : List Nat).filterMap
            (candidateValue (Recurse (fun _ => []) 0) (fun _ => [])
              [0, 1])).min? := by
  have T := recurse_branch_and_bound (fun _ => none) 0 [0, 1]
    [fun j => j == 1] (fun j => j == 1) (fun _ => []) 0 [0, 1]
    (List.mem_singleton.mpr rfl) (by decide) (by decide) rfl (by decide)
  exact ⟨by decide, by decide, T.1, T.2⟩

/-! ## Claim C5 -/

theorem evalBranches_cons_empty (recurse : List Nat → Option ℚ) (w : Nat)
    (ws : List Nat) (q : Nat → Bool) (l : List (Nat → Bool))
    (h : (ws.filter (fun x => q x)).length = 0) :
    evalBranches recurse w ws (q :: l) = evalBranches recurse w ws l := by
  simp only [evalBranches, if_pos h]

theorem evalBranches_cons_congr (recurse : List Nat → Option ℚ) (w : Nat)
    (ws : List Nat) (q : Nat → Bool) (l1 l2 : List (Nat → Bool))
    (h : evalBranches recurse w ws l1 = evalBranches recurse w ws l2) :
    evalBranches recurse w ws (q :: l1) = evalBranches recurse w ws (q :: l2) := by
  simp only [evalBranches, h]

/-- Dropping the patterns that match nothing in the working set does
not change a candidate's branch accumulation. -/
theorem evalBranches_filter_patterns (recurse : List Nat → Option ℚ)
    (w : Nat) (ws : List Nat) (f : Nat → Nat → Bool) (Q : Nat → Bool)
    (ps : List Nat)
    (h : ∀ p ∈ ps, Q p = false → (ws.filter (fun x => f p x)).length = 0) :
    evalBranches recurse w ws (ps.map (fun p => f p))
      = evalBranches recurse w ws ((ps.filter Q).map (fun p => f p)) := by
  induction ps with
  | nil => rfl
  | cons p ps ih =>
    have hrest := ih (fun x hx hQ => h x (List.mem_cons_of_mem p hx) hQ)
    rw [List.map_cons, List.filter_cons]
    cases hQ : Q p with
    | true =>
      rw [if_pos rfl, List.map_cons]
      exact evalBranches_cons_congr recurse w ws _ _ _ hrest
    | false =>
      rw [if_neg (by simp)]
      rw [evalBranches_cons_empty recurse w ws _ _
        (h p (List.mem_cons_self p ps) hQ)]
      exact hrest

/-- Replacing the recursive evaluator by one that agrees on every
partitioned subset does not change a candidate's branch accumulation. -/
theorem evalBranches_recurse_congr (r1 r2 : List Nat → Option ℚ) (w : Nat)
    (ws : List Nat) (l : List (Nat → Bool))
    (h : ∀ pat ∈ l, r1 (ws.filter (fun x => pat x))
      = r2 (ws.filter (fun x => pat x))) :
    evalBranches r1 w ws l = evalBranches r2 w ws l := by
  induction l with
  | nil => rfl
  | cons q rest ih =>
    have hrest := ih (fun x hx => h x (List.mem_cons_of_mem q hx))
    have hq := h q (List.mem_cons_self q rest)
    simp only [evalBranches, hrest, hq]

/-- C5: running the search over the trimmed table returns the same
result as over the untrimmed table, for every working set made of valid
vocabulary indices: trimming discards exactly the patterns whose member
set is empty over the full vocabulary, and those contribute nothing. -/
theorem recurse_trim_eq (words : List Word) (budget : Nat) (ws : List Nat)
    (hws : ∀ w ∈ ws, w < words.length) :
    Recurse (allPatterns (ComputeWordPatternMatches words)) budget ws
      = Recurse
          (TrimWordPatternMatches words (ComputeWordPatternMatches words))
          budget ws := by
  induction budget generalizing ws with
  | zero => rfl
  | succ b ih =>
    rw [Recurse, Recurse]
    by_cases hlen : ws.length = 1
    · rw [if_pos hlen, if_pos hlen]
    · rw [if_neg hlen, if_neg hlen]
      apply List.foldl_ext
      intro acc nextWord _
      have hbranches :
          evalBranches
            (Recurse (allPatterns (ComputeWordPatternMatches words)) b)
            nextWord ws (allPatterns (ComputeWordPatternMatches words) nextWord)
          = evalBranches
            (Recurse
              (TrimWordPatternMatches words (ComputeWordPatternMatches words)) b)
            nextWord ws
            (TrimWordPatternMatches words (ComputeWordPatternMatches words)
              nextWord) := by
        rw [allPatterns, TrimWordPatternMatches,
          evalBranches_filter_patterns _ nextWord ws
            (fun p => ComputeWordPatternMatches words nextWord p)
            (fun p => decide (0 < (List.range words.length).countP
              (fun j => ComputeWordPatternMatches words nextWord p j)))
            (List.range 243) ?_]
        · apply evalBranches_recurse_congr
          intro pat _
          apply ih
          intro w hw
          exact hws w (List.mem_of_mem_filter hw)
        · intro p _ hQ
          have hzero : (List.range words.length).countP
              (fun j => ComputeWordPatternMatches words nextWord p j) = 0 := by
            by_contra hc
            simp only [decide_eq_false_iff_not, not_lt, Nat.le_zero] at hQ
            exact hc hQ
          have hfalse := List.countP_eq_zero.mp hzero
          rw [List.length_eq_zero, List.filter_eq_nil_iff]
          intro a ha
          have haV : a < words.length := hws a ha
          have := hfalse a (List.mem_range.mpr haV)
          simpa using this
      rw [candidateValue, candidateValue, hbranches]

theorem recurse_trim_eq_witness :
    (∀ w ∈ ([0, 1] : List Nat), w < wordsB.length)
    ∧ Recurse (allPatterns (ComputeWordPatternMatches wordsB)) 1 [0, 1]
        = Recurse
            (TrimWordPatternMatches wordsB (ComputeWordPatternMatches wordsB))
            1 [0, 1] :=
  ⟨by decide, recurse_trim_eq wordsB 1 [0, 1] (by decide)⟩

/-! ## Claim C9 -/

theorem pass2digits_self (w : Word) (ll : Char → Nat) :
    pass2digits w w ll = List.replicate w.length 2 := by
  induction w generalizing ll with
  | nil => rfl
  | cons c ws ih => simp [pass2digits, ih, List.replicate_succ]

theorem digitsValue_inj (ds1 : List Nat) :
    ∀ ds2 : List Nat, (∀ d ∈ ds1, d < 3) → (∀ d ∈ ds2, d < 3) →
    ds1.length = ds2.length →
    digitsValue 1 ds1 = digitsValue 1 ds2 → ds1 = ds2 := by
  induction ds1 with
  | nil =>
    intro ds2 _ _ hlen _
    cases ds2 with
    | nil => rfl
    | cons d t => simp at hlen
  | cons d1 t1 ih =>
    intro ds2 h1 h2 hlen hv
    cases ds2 with
    | nil => simp at hlen
    | cons d2 t2 =>
      rw [digitsValue_cons, digitsValue_cons] at hv
      have hd1 : d1 < 3 := h1 d1 (List.mem_cons_self d1 t1)
      have hd2 : d2 < 3 := h2 d2 (List.mem_cons_self d2 t2)
      have hd : d1 = d2 ∧ digitsValue 1 t1 = digitsValue 1 t2 := by omega
      rw [hd.1, ih t2 (fun x hx => h1 x (List.mem_cons_of_mem d1 hx))
        (fun x hx => h2 x (List.mem_cons_of_mem d2 hx))
        (by simpa using hlen) hd.2]

theorem pass2digits_eq_replicate (g : Word) :
    ∀ (a : Word) (ll : Char → Nat), g.length = a.length →
    pass2digits g a ll = List.replicate g.length 2 → a = g := by
  induction g with
  | nil =>
    intro a ll hlen _
    cases a with
    | nil => rfl
    | cons x t => simp at hlen
  | cons c gs ih =>
    intro a ll hlen hdig
    cases a with
    | nil => simp at hlen
    | cons x t =>
      rw [List.length_cons, List.replicate_succ] at hdig
      by_cases hcx : c = x
      · rw [pass2digits, if_pos hcx] at hdig
        have ht := List.cons.inj hdig
        rw [ih t ll (by simpa using hlen) ht.2, hcx]
      · rw [pass2digits, if_neg hcx] at hdig
        split_ifs at hdig <;> simp at hdig

/-- A guess is compatible with itself only under the all-exact pattern:
`encode g a = encode g g` forces `a = g` for equal lengths. -/
theorem encode_right_inj (g a : Word) (hga : g.length = a.length)
    (h : encode g a = encode g g) : a = g := by
  have hd1 : (encodeDigits g a).length = g.length :=
    pass2digits_length g a _ hga
  have hd2 : encodeDigits g g = List.replicate g.length 2 :=
    pass2digits_self g _
  have hlt1 : ∀ d ∈ encodeDigits g a, d < 3 :=
    pass2digits_lt_three g a (lettersLeft g a)
  have hlt2 : ∀ d ∈ encodeDigits g g, d < 3 :=
    pass2digits_lt_three g g (lettersLeft g g)
  rw [encode_eq_digitsValue, encode_eq_digitsValue] at h
  have hdig := digitsValue_inj (encodeDigits g a) (encodeDigits g g)
    hlt1 hlt2 (by rw [hd1, hd2, List.length_replicate]) h
  exact pass2digits_eq_replicate g a (lettersLeft g a) hga (hdig.trans hd2)

theorem filter_nodup_singleton (pred : Nat → Bool) (g : Nat) :
    ∀ ws : List Nat, ws.Nodup → g ∈ ws →
    (∀ a ∈ ws, (pred a = true ↔ a = g)) → ws.filter pred = [g] := by
  intro ws
  induction ws with
  | nil => intro _ hg; cases hg
  | cons x t ih =>
    intro hnd hg hiff
    rcases List.mem_cons.mp hg with rfl | hgt
    · have hx : pred g = true := (hiff g (List.mem_cons_self g t)).mpr rfl
      have hnil : List.filter pred t = [] := by
        rw [List.filter_eq_nil_iff]
        intro a ha hpa
        have := (hiff a (List.mem_cons_of_mem g ha)).mp hpa
        exact (List.nodup_cons.mp hnd).1 (this ▸ ha)
      rw [List.filter_cons_of_pos hx, hnil]
    · have hx : ¬pred x = true := by
        intro hpa
        have := (hiff x (List.mem_cons_self x t)).mp hpa
        exact (List.nodup_cons.mp hnd).1 (this ▸ hgt)
      rw [List.filter_cons_of_neg hx]
      exact ih (List.nodup_cons.mp hnd).2 hgt
        (fun a ha => hiff a (List.mem_cons_of_mem x ha))

/-- C9: whenever the exact-match shortcut test succeeds — the first
element written to the scratch buffer equals the guessed word — the
partitioned subset is exactly the singleton of the guessed word; the
pattern in question is the all-exact-match pattern (242 for five-letter
words), and the member set of that pattern for guess `g` is exactly
`{g}`. -/
theorem exact_match_shortcut (words : List Word) (g p : Nat) (ws : List Nat)
    (hnd : words.Nodup) (hlen5 : ∀ w ∈ words, w.length = 5)
    (hg : g < words.length) (hws : ∀ w ∈ ws, w < words.length)
    (hwsnd : ws.Nodup)
    (hne : ws.filter (fun a => ComputeWordPatternMatches words g p a) ≠ [])
    (hhead : (ws.filter
      (fun a => ComputeWordPatternMatches words g p a)).headD 0 = g) :
    ws.filter (fun a => ComputeWordPatternMatches words g p a) = [g]
    ∧ p = encode (words.getD g []) (words.getD g [])
    ∧ encode (words.getD g []) (words.getD g []) = 242
    ∧ ∀ a < words.length,
        (ComputeWordPatternMatches words g
          (encode (words.getD g []) (words.getD g [])) a = true ↔ a = g) := by
  have hinj : ∀ a, a < words.length →
      encode (words.getD g []) (words.getD a [])
        = encode (words.getD g []) (words.getD g []) → a = g := by
    intro a ha heq
    have hga : (words.getD g []).length = (words.getD a []).length := by
      rw [List.getD_eq_getElem words [] hg, List.getD_eq_getElem words [] ha,
        hlen5 _ (List.getElem_mem hg), hlen5 _ (List.getElem_mem ha)]
    have hwa := encode_right_inj _ _ hga heq
    rw [List.getD_eq_getElem words [] hg, List.getD_eq_getElem words [] ha]
      at hwa
    exact (List.Nodup.getElem_inj_iff hnd).mp hwa
  obtain ⟨x, t, hxt⟩ := List.exists_cons_of_ne_nil hne
  rw [hxt, List.headD_cons] at hhead
  subst hhead
  have hmemg : x ∈ ws.filter
      (fun a => ComputeWordPatternMatches words x p a) := by
    rw [hxt]; exact List.mem_cons_self x t
  have hgws : x ∈ ws := (List.mem_filter.mp hmemg).1
  have hpredg : ComputeWordPatternMatches words x p x = true :=
    (List.mem_filter.mp hmemg).2
  rw [ComputeWordPatternMatches_spec] at hpredg
  have hp : p = encode (words.getD x []) (words.getD x []) := by
    by_contra hc
    rw [if_neg (fun hcon => hc hcon.2.2)] at hpredg
    exact Bool.false_ne_true hpredg
  have hiff : ∀ a ∈ ws,
      (ComputeWordPatternMatches words x p a = true ↔ a = x) := by
    intro a ha
    rw [ComputeWordPatternMatches_spec]
    constructor
    · intro htrue
      by_cases hcond : x < words.length ∧ a < words.length
        ∧ p = encode (words.getD x []) (words.getD a [])
      · refine hinj a hcond.2.1 ?_
        rw [← hcond.2.2, hp]
      · rw [if_neg hcond] at htrue
        exact absurd htrue Bool.false_ne_true
    · rintro rfl
      rw [if_pos ⟨hg, hg, hp⟩]
  have hfilter : ws.filter (fun a => ComputeWordPatternMatches words x p a)
      = [x] := filter_nodup_singleton _ x ws hwsnd hgws hiff
  have h242 : encode (words.getD x []) (words.getD x []) = 242 := by
    have hl : (words.getD x []).length = 5 := by
      rw [List.getD_eq_getElem words [] hg]
      exact hlen5 _ (List.getElem_mem hg)
    rw [encode_eq_digitsValue, encodeDigits, pass2digits_self, hl]
    rfl
  refine ⟨hfilter, hp, h242, ?_⟩
  intro a ha
  rw [ComputeWordPatternMatches_spec]
  constructor
  · intro htrue
    by_cases hcond : x < words.length ∧ a < words.length
      ∧ encode (words.getD x []) (words.getD x [])
        = encode (words.getD x []) (words.getD a [])
    · exact hinj a ha hcond.2.2.symm
    · rw [if_neg hcond] at htrue
      exact absurd htrue Bool.false_ne_true
  · rintro rfl
    rw [if_pos ⟨hg, ha, rfl⟩]

theorem exact_match_shortcut_witness :
    (([0, 1] : List Nat).filter
        (fun a => ComputeWordPatternMatches wordsB 0 242 a) ≠ [])
    ∧ (([0, 1] : List Nat).filter
        (fun a => ComputeWordPatternMatches wordsB 0 242 a)).headD 0 = 0
    ∧ ([0, 1] : List Nat).filter
        (fun a => ComputeWordPatternMatches wordsB 0 242 a) = [0]
    ∧ 242 = encode (wordsB.getD 0 []) (wordsB.getD 0 [])
    ∧ encode (wordsB.getD 0 []) (wordsB.getD 0 []) = 242 := by
  have T := exact_match_shortcut wordsB 0 242 [0, 1] (by decide) (by decide)
    (by decide) (by decide) (by decide) (by decide) (by decide)
  exact ⟨by decide, by decide, T.1, T.2.1, T.2.2.1⟩

/-! ## Claim C10 -/

/-- If every pattern in the list partitions the full range into a
non-empty subset, the buffer head written by a previous iteration is
never read: the accumulated result does not depend on it. -/
theorem threadBranches_result_independent (recurse : List Nat → Option ℚ)
    (firstWord V : Nat) (l : List (Nat → Bool))
    (h : ∀ pat ∈ l, (List.range V).filter (fun w => pat w) ≠ []) :
    ∀ b0 b0', (threadBranches recurse firstWord V b0 l).1
      = (threadBranches recurse firstWord V b0' l).1 := by
  induction l with
  | nil => intro b0 b0'; rfl
  | cons pat rest ih =>
    intro b0 b0'
    have hne := h pat (List.mem_cons_self pat rest)
    obtain ⟨x, t, hxt⟩ := List.exists_cons_of_ne_nil hne
    simp only [threadBranches, hxt, List.headD_cons]

/-- C10: every pattern retained by `TrimWordPatternMatches` matches at
least one word of the full vocabulary, so in `Thread` the unguarded
read of `next_words_left[0]` always sees a value written during the
current pattern iteration: the result is independent of whatever the
buffer head held before. -/
theorem trimmed_patterns_nonempty (words : List Word) (g : Nat)
    (recurse : List Nat → Option ℚ) (firstWord b0 b0' : Nat) :
    (∀ pat ∈ TrimWordPatternMatches words (ComputeWordPatternMatches words) g,
      (List.range words.length).filter (fun w => pat w) ≠ [])
    ∧ (threadBranches recurse firstWord words.length b0
        (TrimWordPatternMatches words (ComputeWordPatternMatches words) g)).1
      = (threadBranches recurse firstWord words.length b0'
        (TrimWordPatternMatches words (ComputeWordPatternMatches words) g)).1 := by
  have hne : ∀ pat ∈ TrimWordPatternMatches words
      (ComputeWordPatternMatches words) g,
      (List.range words.length).filter (fun w => pat w) ≠ [] := by
    intro pat hpat
    rcases List.mem_map.mp hpat with ⟨p, hp, rfl⟩
    have hcount := (List.mem_filter.mp hp).2
    rw [decide_eq_true_eq] at hcount
    intro hnil
    rw [List.countP_eq_length_filter, hnil] at hcount
    exact absurd hcount (by simp)
  exact ⟨hne, threadBranches_result_independent recurse firstWord
    words.length _ hne b0 b0'⟩

theorem trimmed_patterns_nonempty_witness :
    (threadBranches (fun _ => none) 0 wordsB.length 5
      (TrimWordPatternMatches wordsB (ComputeWordPatternMatches wordsB) 0)).1
    = (threadBranches (fun _ => none) 0 wordsB.length 7
      (TrimWordPatternMatches wordsB (ComputeWordPatternMatches wordsB) 0)).1 :=
  (trimmed_patterns_nonempty wordsB 0 (fun _ => none) 0 5 7).2

/-! ## Claim C7 -/

theorem lexLt_iff_toLex (p q : ℚ × Nat) : lexLt p q ↔ toLex p < toLex q :=
  (Prod.Lex.lt_iff p q).symm

theorem updateBest_some (q p : ℚ × Nat) :
    updateBest (some q) p = if lexLt p q then some p else some q := by
  cases q with
  | mk m bw => simp only [updateBest, lexLt]

/-- The best-so-far update keeps the lexicographic minimum of the old
record and the new one. -/
theorem updateBest_some_eq_min (s p : ℚ × Nat) :
    updateBest (some s) p = some (ofLex (min (toLex s) (toLex p))) := by
  rw [updateBest_some]
  rcases lt_or_ge (toLex p) (toLex s) with h | h
  · rw [if_pos ((lexLt_iff_toLex p s).mpr h), min_eq_right h.le, ofLex_toLex]
  · rw [if_neg (fun hc => absurd ((lexLt_iff_toLex p s).mp hc)
      (not_lt.mpr h)), min_eq_left h, ofLex_toLex]

theorem updateBest_comm (b : Option (ℚ × Nat)) (p q : ℚ × Nat) :
    updateBest (updateBest b p) q = updateBest (updateBest b q) p := by
  cases b with
  | none =>
    show updateBest (some p) q = updateBest (some q) p
    rw [updateBest_some_eq_min, updateBest_some_eq_min, min_comm]
  | some s =>
    rw [updateBest_some_eq_min, updateBest_some_eq_min,
      updateBest_some_eq_min, updateBest_some_eq_min]
    simp only [toLex_ofLex]
    rw [min_right_comm]

theorem lexLt_irrefl (p : ℚ × Nat) : ¬ lexLt p p := by
  rw [lexLt_iff_toLex]
  exact lt_irrefl _

/-- Folding the best-so-far update from a seed yields a lexicographic
minimum of the seed and all folded records. -/
theorem foldl_updateBest_min (t : List (ℚ × Nat)) :
    ∀ q : ℚ × Nat, ∃ q', t.foldl updateBest (some q) = some q'
      ∧ (q' = q ∨ q' ∈ t) ∧ ¬ lexLt q q' ∧ ∀ p ∈ t, ¬ lexLt p q' := by
  induction t with
  | nil =>
    intro q
    exact ⟨q, rfl, Or.inl rfl, lexLt_irrefl q, by simp⟩
  | cons a t ih =>
    intro q
    rw [List.foldl_cons, updateBest_some_eq_min]
    obtain ⟨q', h1, h2, h3, h4⟩ := ih (ofLex (min (toLex q) (toLex a)))
    have hql : toLex (ofLex (min (toLex q) (toLex a))) ≤ toLex q := by
      rw [toLex_ofLex]; exact min_le_left _ _
    have hqr : toLex (ofLex (min (toLex q) (toLex a))) ≤ toLex a := by
      rw [toLex_ofLex]; exact min_le_right _ _
    refine ⟨q', h1, ?_, ?_, ?_⟩
    · rcases h2 with rfl | h2
      · rcases min_cases (toLex q) (toLex a) with ⟨hm, _⟩ | ⟨hm, _⟩
        · exact Or.inl (by rw [hm, ofLex_toLex])
        · exact Or.inr (by rw [hm, ofLex_toLex]; exact List.mem_cons_self a t)
      · exact Or.inr (List.mem_cons_of_mem a h2)
    · rw [lexLt_iff_toLex] at h3 ⊢
      intro hc
      exact h3 (lt_of_le_of_lt hql hc)
    · intro p hp
      rcases List.mem_cons.mp hp with rfl | hp
      · rw [lexLt_iff_toLex] at h3 ⊢
        intro hc
        exact h3 (lt_of_le_of_lt hqr hc)
      · exact h4 p hp

/-- C7: the shared best-so-far record is advanced exactly when the new
record is lexicographically smaller (strictly lower value, or equal
value with lower vocabulary index); folding the updates of all workers'
emitted records produces the lexicographic minimum over the
non-discarded top-level candidates, whatever order the workers'
critical sections interleave in. -/
theorem thread_best_reduction (wpm : Nat → List (Nat → Bool))
    (V maxNum : Nat) (ranges : List (List Nat)) (l : List (ℚ × Nat))
    (q rec : ℚ × Nat)
    (hperm : l.Perm ((ranges.map (threadRun wpm V maxNum 0)).flatten)) :
    (updateBest (some q) rec = if lexLt rec q then some rec else some q)
    ∧ l.foldl updateBest none
        = ((ranges.map (threadRun wpm V maxNum 0)).flatten).foldl
            updateBest none
    ∧ (l ≠ [] → ∃ best, l.foldl updateBest none = some best
        ∧ best ∈ l ∧ ∀ p ∈ l, ¬ lexLt p best) := by
  haveI : RightCommutative updateBest := ⟨fun b p q => updateBest_comm b p q⟩
  refine ⟨updateBest_some q rec, hperm.foldl_eq none, ?_⟩
  intro hne
  obtain ⟨a, t, rfl⟩ := List.exists_cons_of_ne_nil hne
  rw [List.foldl_cons]
  obtain ⟨q', h1, h2, h3, h4⟩ := foldl_updateBest_min t a
  refine ⟨q', h1, ?_, ?_⟩
  · rcases h2 with rfl | h2
    · exact List.mem_cons_self q' t
    · exact List.mem_cons_of_mem a h2
  · intro p hp
    rcases List.mem_cons.mp hp with rfl | hp
    · exact h3
    · exact h4 p hp

theorem thread_best_reduction_witness :
    ((([[0], [1]].map (threadRun wpmB 2 6 0)).flatten).reverse).foldl
        updateBest none
      = (([[0], [1]].map (threadRun wpmB 2 6 0)).flatten).foldl
          updateBest none
    ∧ ∃ best,
        ((([[0], [1]].map (threadRun wpmB 2 6 0)).flatten).reverse).foldl
          updateBest none = some best
        ∧ best ∈ (([[0], [1]].map (threadRun wpmB 2 6 0)).flatten).reverse
        ∧ ∀ p ∈ (([[0], [1]].map (threadRun wpmB 2 6 0)).flatten).reverse,
            ¬ lexLt p best := by
  have T := thread_best_reduction wpmB 2 6 [[0], [1]]
    ((([[0], [1]].map (threadRun wpmB 2 6 0)).flatten).reverse) (0, 0) (0, 0)
    (List.reverse_perm _)
  exact ⟨T.2.1, T.2.2 (by decide)⟩

end WordleSolver
